import Mathlib

/-!
Shallow embedding of `src/ipo_scanner.py` (IPO near-ATH scanner) and
verification of its specification claims.

Modelling conventions:
* Prices are exact rationals (`ℚ`); Python floats are modelled exactly.
* A pandas DataFrame of daily bars is a `List PriceBar` plus a flag
  recording whether the "High" column is present (`Hist`).
* Python `int` arithmetic in the recency gate is modelled over `ℤ`
  (Python subtraction does not truncate at zero).
* Network fetches are modelled by passing the fetch outcome as data
  (`FetchResult`, `InsiderResp`): the request itself is I/O, the branching
  on its outcome is the code under verification.
-/

/-- CONFIG constant `THRESHOLD = 0.03` (3% near ATH). -/
def THRESHOLD : ℚ := 3 / 100

/-- CONFIG constant `MIN_LISTING_DAYS = 150`. -/
def MIN_LISTING_DAYS : ℕ := 150

/-- One daily OHLCV bar of a price history (fields the scanner reads). -/
structure PriceBar where
  high : ℚ
  close : ℚ
  volume : ℚ
deriving Repr, DecidableEq

/-- A fetched price history: the rows, plus whether the "High" column is
present (`compute_ath` tests `"High" not in hist.columns`). -/
structure Hist where
  bars : List PriceBar
  hasHigh : Bool
deriving Repr, DecidableEq

/-- Maximum of a list of rationals (`hist["High"].max()`); `none` on empty. -/
def listMaxQ : List ℚ → Option ℚ
  | [] => none
  | x :: xs => some (xs.foldl max x)

/-- Index of the first occurrence of `a` (pandas `idxmax` + `get_loc`:
first positional occurrence of the maximum). -/
def firstIdxOf (a : ℚ) : List ℚ → ℕ
  | [] => 0
  | x :: xs => if x = a then 0 else firstIdxOf a xs + 1

/-- Result tuple of `compute_ath`: `(ath, ath_pos, total)`.  The pandas
label `ath_idx` is the timestamp at position `ath_pos`; with unique
chronological timestamps it is determined by `ath_pos`, so only the
position is modelled. -/
structure ATHInfo where
  ath : ℚ
  ath_pos : ℕ
  total : ℕ
deriving Repr, DecidableEq

/-- `compute_ath(hist)`: `None` if the history is absent, empty or lacks a
"High" column; otherwise the max high, its first position, and the length. -/
def compute_ath (hist : Option Hist) : Option ATHInfo :=
  match hist with
  | none => none
  | some h =>
    if h.bars.isEmpty then none
    else if !h.hasHigh then none
    else
      let highs := h.bars.map PriceBar.high
      match listMaxQ highs with
      | none => none
      | some m => some { ath := m, ath_pos := firstIdxOf m highs, total := h.bars.length }

/-- The spec's derived quantity `barsSinceATH = total − 1 − athIndex`. -/
def barsSinceATH (info : ATHInfo) : ℕ := info.total - 1 - info.ath_pos

/-- The recency gate `if ath_pos > total - 4: continue`, over Python
integers (no truncation at zero). -/
def recencySkip (ath_pos total : ℕ) : Bool :=
  decide ((ath_pos : ℤ) > (total : ℤ) - 4)

/-- The three corroboration booleans computed per symbol. -/
structure CorroborationSignals where
  bulkDeal : Bool
  positiveNews : Bool
  insiderBuying : Bool
deriving Repr, DecidableEq

/-- The main alert condition `current >= ath * (1 - THRESHOLD)`. -/
def shouldAlert (current ath : ℚ) : Bool :=
  decide (current ≥ ath * (1 - THRESHOLD))

/-- Python `round` to an integer: round half to even. -/
def roundHalfEven (q : ℚ) : ℤ :=
  let f := ⌊q⌋
  let r := q - f
  if r < 1 / 2 then f
  else if r > 1 / 2 then f + 1
  else if f % 2 = 0 then f else f + 1

/-- Python `round(x, 2)`: round to two decimal places, half to even. -/
def round2 (q : ℚ) : ℚ := (roundHalfEven (q * 100) : ℚ) / 100

/-- `hist["Close"].iloc[-1]`: close of the most recent bar (default `0`
is never reached on the nonempty histories the pipeline feeds it). -/
def lastCloseD (bars : List PriceBar) : ℚ :=
  (bars.getLast?.map PriceBar.close).getD 0

/-- Outcome of one iteration of the per-symbol loop in `__main__`. -/
inductive SymbolOutcome where
  | noHistory
  | noATH
  | tooRecent
  | noAlert (signals : CorroborationSignals)
  | alert (diff : ℚ) (signals : CorroborationSignals)
deriving Repr, DecidableEq

/-- Whether an iteration ended in an alert being sent. -/
def outcomeAlert : SymbolOutcome → Bool
  | .alert _ _ => true
  | _ => false

/-- One iteration of the per-symbol loop: fetch outcome and corroboration
signal values are inputs (they are produced by I/O); everything after is
the code's branching.  Mirrors lines 212–269 of `ipo_scanner.py`. -/
def processSymbol (hist : Option Hist) (signals : CorroborationSignals) : SymbolOutcome :=
  match hist with
  | none => .noHistory
  | some h =>
    match compute_ath (some h) with
    | none => .noATH
    | some info =>
      if recencySkip info.ath_pos info.total then .tooRecent
      else
        let current := lastCloseD h.bars
        if shouldAlert current info.ath then
          .alert (round2 ((info.ath - current) / info.ath * 100)) signals
        else
          .noAlert signals

/-- Per-symbol input to a scan run: the fetched history and the three
fetched corroboration signals. -/
structure SymbolInput where
  hist : Option Hist
  signals : CorroborationSignals
deriving Repr, DecidableEq

/-- The whole scan: the per-symbol loop over the universe. -/
def scanRun (inputs : List SymbolInput) : List SymbolOutcome :=
  inputs.map (fun i => processSymbol i.hist i.signals)

/-- Python `str.lower()`. -/
def lowerStr (s : String) : String := s.map Char.toLower

/-- Python `str.upper()`. -/
def upperStr (s : String) : String := s.map Char.toUpper

/-- Whether `pat` is a prefix of `s` (character lists). -/
def startsWithChars : List Char → List Char → Bool
  | [], _ => true
  | _ :: _, [] => false
  | a :: as, b :: bs => a == b && startsWithChars as bs

/-- Whether `pat` occurs as a contiguous substring of `s`. -/
def hasSubChars (pat : List Char) : List Char → Bool
  | [] => startsWithChars pat []
  | c :: rest => startsWithChars pat (c :: rest) || hasSubChars pat rest

/-- Python `pat in t` on strings: substring containment. -/
def strContainsSub (t pat : String) : Bool := hasSubChars pat.toList t.toList

/-- Outcome of an external fetch: the request raised, or produced a value.
The `failure` case covers network errors and anything the blanket
`except` of each check catches. -/
inductive FetchResult (α : Type) where
  | failure
  | ok (val : α)
deriving Repr, DecidableEq

/-- The parsed daily bulk-deal CSV: whether a "SYMBOL" column exists and,
when it does, its values. -/
structure BulkCsv where
  hasSymbolCol : Bool
  symbols : List String
deriving Repr, DecidableEq

/-- `check_bulk_deal(symbol)`: membership of the upper-cased symbol in the
upper-cased SYMBOL column; anything going wrong yields `False`. -/
def check_bulk_deal (symbol : String) (resp : FetchResult BulkCsv) : Bool :=
  match resp with
  | .failure => false
  | .ok df =>
    if df.hasSymbolCol then
      df.symbols.any (fun s => upperStr s == upperStr symbol)
    else false

/-- The positive-sentiment vocabulary of `check_positive_news`. -/
def positive_words : List String :=
  ["surge", "jumps", "rallies", "strong", "record",
   "expands", "beats", "profit", "growth", "upgrade",
   "bullish", "wins", "approval"]

/-- `check_positive_news(symbol)`: some fetched headline, lower-cased,
contains a positive word; an empty news list or a raised exception yields
`False`.  Each list element is one item's `get("title", "")`. -/
def check_positive_news (resp : FetchResult (List String)) : Bool :=
  match resp with
  | .failure => false
  | .ok titles =>
    if titles.isEmpty then false
    else titles.any (fun t => positive_words.any (fun w => strContainsSub (lowerStr t) w))

/-- Outcome of the insider-trading API call, following the branch structure
of `check_insider_buying`: request raised, empty body, HTML body, body that
is not JSON, or parsed JSON (with or without a "Table" key; `modes` lists
`str(row.get("Mode", ""))` for the rows of "Table"). -/
inductive InsiderResp where
  | failure
  | emptyBody
  | htmlBody
  | nonJson
  | json (hasTable : Bool) (modes : List String)
deriving Repr, DecidableEq

/-- The action words `check_insider_buying` looks for in a row's Mode. -/
def insider_actions : List String := ["acquisition", "buy", "purchase"]

/-- `check_insider_buying(symbol)`: some row of "Table" has a Mode
containing an acquisition word; every failure shape yields `False`. -/
def check_insider_buying (resp : InsiderResp) : Bool :=
  match resp with
  | .failure => false
  | .emptyBody => false
  | .htmlBody => false
  | .nonJson => false
  | .json hasTable modes =>
    if !hasTable then false
    else modes.any (fun m => insider_actions.any (fun x => strContainsSub (lowerStr m) x))

/-- One row of the NSE equity list, after date parsing: `listingDate` is
the parsed "DATE OF LISTING" as a day number, `none` when unparseable
(`errors="coerce"` produced NaT). -/
structure EquityRow where
  symbol : String
  listingDate : Option ℤ
  series : String
deriving Repr, DecidableEq

/-- `get_recent_ipos(days)` after the fetch: drop rows with unparseable
dates, keep listing dates on or after the cutoff, keep series "EQ", and
return the SYMBOL column as a list. -/
def get_recent_ipos (rows : List EquityRow) (cutoff : ℤ) : List String :=
  let parsed := rows.filter (fun r => r.listingDate.isSome)
  let recent := parsed.filter (fun r =>
    match r.listingDate with
    | some d => decide (cutoff ≤ d)
    | none => false)
  let eqOnly := recent.filter (fun r => r.series == "EQ")
  eqOnly.map (fun r => r.symbol)

/-! ### Helper lemmas about list maxima and first occurrences -/

lemma le_foldl_max (l : List ℚ) : ∀ x : ℚ, x ≤ l.foldl max x := by
  induction l with
  | nil => intro x; exact le_refl x
  | cons y ys ih =>
    intro x
    exact le_trans (le_max_left x y) (ih (max x y))

lemma mem_le_foldl_max (l : List ℚ) : ∀ (x : ℚ) (a : ℚ), a ∈ l → a ≤ l.foldl max x := by
  induction l with
  | nil => intro x a ha; cases ha
  | cons y ys ih =>
    intro x a ha
    rcases List.mem_cons.mp ha with rfl | hmem
    · exact le_trans (le_max_right x a) (le_foldl_max ys (max x a))
    · exact ih (max x y) a hmem

lemma foldl_max_mem (l : List ℚ) : ∀ x : ℚ, l.foldl max x = x ∨ l.foldl max x ∈ l := by
  induction l with
  | nil => intro x; exact Or.inl rfl
  | cons y ys ih =>
    intro x
    rcases ih (max x y) with heq | hmem
    · rcases max_cases x y with ⟨hm, _⟩ | ⟨hm, _⟩
      · exact Or.inl (by rw [List.foldl_cons, heq, hm])
      · exact Or.inr (by rw [List.foldl_cons, heq, hm]; exact List.mem_cons_self y ys)
    · exact Or.inr (List.mem_cons_of_mem y hmem)

lemma listMaxQ_spec {l : List ℚ} {m : ℚ} (hm : listMaxQ l = some m) :
    m ∈ l ∧ ∀ a ∈ l, a ≤ m := by
  cases l with
  | nil => simp [listMaxQ] at hm
  | cons x xs =>
    simp only [listMaxQ, Option.some.injEq] at hm
    subst hm
    constructor
    · rcases foldl_max_mem xs x with heq | hmem
      · rw [heq]; exact List.mem_cons_self x xs
      · exact List.mem_cons_of_mem x hmem
    · intro a ha
      rcases List.mem_cons.mp ha with rfl | hmem
      · exact le_foldl_max xs a
      · exact mem_le_foldl_max xs x a hmem

lemma listMaxQ_isSome {l : List ℚ} (h : l ≠ []) : ∃ m, listMaxQ l = some m := by
  cases l with
  | nil => exact absurd rfl h
  | cons x xs => exact ⟨xs.foldl max x, rfl⟩

lemma firstIdxOf_lt_length {a : ℚ} {l : List ℚ} (h : a ∈ l) :
    firstIdxOf a l < l.length := by
  induction l with
  | nil => cases h
  | cons x xs ih =>
    by_cases hx : x = a
    · simp [firstIdxOf, hx]
    · rcases List.mem_cons.mp h with rfl | hmem
      · exact absurd rfl hx
      · simpa [firstIdxOf, hx] using ih hmem

lemma getD_firstIdxOf {a : ℚ} {l : List ℚ} (h : a ∈ l) :
    l.getD (firstIdxOf a l) 0 = a := by
  induction l with
  | nil => cases h
  | cons x xs ih =>
    by_cases hx : x = a
    · simp [firstIdxOf, hx]
    · rcases List.mem_cons.mp h with rfl | hmem
      · exact absurd rfl hx
      · simpa [firstIdxOf, hx] using ih hmem

lemma getD_before_firstIdxOf {a : ℚ} {l : List ℚ} :
    ∀ {j : ℕ}, j < firstIdxOf a l → l.getD j 0 ≠ a := by
  induction l with
  | nil => intro j hj; simp [firstIdxOf] at hj
  | cons x xs ih =>
    intro j hj
    by_cases hx : x = a
    · simp [firstIdxOf, hx] at hj
    · cases j with
      | zero => simpa using hx
      | succ k =>
        simp only [firstIdxOf, hx, if_false] at hj
        exact ih (Nat.lt_of_succ_lt_succ hj)

/-! ### Characterisation of `compute_ath` -/

lemma compute_ath_some {h : Hist} {info : ATHInfo}
    (hc : compute_ath (some h) = some info) :
    h.bars ≠ [] ∧ h.hasHigh = true ∧
    info.total = h.bars.length ∧
    info.ath_pos < h.bars.length ∧
    (h.bars.map PriceBar.high).getD info.ath_pos 0 = info.ath ∧
    (∀ a ∈ h.bars.map PriceBar.high, a ≤ info.ath) ∧
    (∀ j, j < info.ath_pos → (h.bars.map PriceBar.high).getD j 0 ≠ info.ath) := by
  unfold compute_ath at hc
  by_cases hemp : h.bars.isEmpty
  · simp [hemp] at hc
  · by_cases hh : h.hasHigh
    · simp only [hemp, hh, Bool.not_true, Bool.false_eq_true, if_false] at hc
      rcases hmq : listMaxQ (h.bars.map PriceBar.high) with _ | m
      · rw [hmq] at hc; exact absurd hc (by simp)
      · rw [hmq] at hc
        simp only [Option.some.injEq] at hc
        obtain ⟨hmem, hle⟩ := listMaxQ_spec hmq
        subst hc
        refine ⟨by simpa [List.isEmpty_iff] using hemp, hh, rfl, ?_, ?_, hle, ?_⟩
        · have := firstIdxOf_lt_length hmem
          simpa using this
        · exact getD_firstIdxOf hmem
        · intro j hj; exact getD_before_firstIdxOf hj
    · simp [hemp, hh] at hc

lemma compute_ath_isSome {h : Hist} (hne : h.bars ≠ []) (hh : h.hasHigh = true) :
    ∃ info, compute_ath (some h) = some info := by
  obtain ⟨m, hm⟩ := listMaxQ_isSome (l := h.bars.map PriceBar.high) (by simpa using hne)
  refine ⟨⟨m, firstIdxOf m (h.bars.map PriceBar.high), h.bars.length⟩, ?_⟩
  unfold compute_ath
  simp [List.isEmpty_iff, hne, hh, hm]

/-! ### Characterisation of one loop iteration -/

lemma processSymbol_of_gates {h : Hist} {info : ATHInfo} (s : CorroborationSignals)
    (hc : compute_ath (some h) = some info)
    (hr : recencySkip info.ath_pos info.total = false) :
    processSymbol (some h) s =
      if shouldAlert (lastCloseD h.bars) info.ath then
        .alert (round2 ((info.ath - lastCloseD h.bars) / info.ath * 100)) s
      else .noAlert s := by
  simp only [processSymbol, hc, hr, Bool.false_eq_true, if_false]

lemma processSymbol_alert_inv {h : Hist} {s : CorroborationSignals} {d : ℚ}
    {sg : CorroborationSignals}
    (hp : processSymbol (some h) s = .alert d sg) :
    ∃ info, compute_ath (some h) = some info ∧
      recencySkip info.ath_pos info.total = false ∧
      shouldAlert (lastCloseD h.bars) info.ath = true ∧
      d = round2 ((info.ath - lastCloseD h.bars) / info.ath * 100) ∧ sg = s := by
  rcases hca : compute_ath (some h) with _ | info
  · simp only [processSymbol, hca] at hp
    exact SymbolOutcome.noConfusion hp
  · simp only [processSymbol, hca] at hp
    by_cases hr : recencySkip info.ath_pos info.total = true
    · rw [if_pos hr] at hp
      exact SymbolOutcome.noConfusion hp
    · rw [if_neg hr] at hp
      by_cases hs : shouldAlert (lastCloseD h.bars) info.ath = true
      · rw [if_pos hs] at hp
        injection hp with h1 h2
        exact ⟨info, rfl, by simpa using hr, hs, h1.symm, h2.symm⟩
      · rw [if_neg hs] at hp
        exact SymbolOutcome.noConfusion hp

/-- The example history used to instantiate concrete witnesses: five bars,
ATH 250 at position 0, latest close 245. -/
def exHist : Hist :=
  ⟨[⟨250, 245, 1000⟩, ⟨240, 238, 900⟩, ⟨230, 230, 800⟩,
    ⟨220, 219, 700⟩, ⟨246, 245, 600⟩], true⟩

/-- The all-false corroboration signal triple, used in witnesses. -/
def exSignals : CorroborationSignals := ⟨false, false, false⟩

/-! ### Claim theorems -/

/-- C1: past the history, ATH and recency gates, the alert decision is
exactly `currentPrice ≥ athPrice * (1 - threshold)` with threshold 0.03
and `currentPrice` the latest close; a close exactly at
`athPrice * (1 - threshold)` alerts (inclusive bound) and a close one
currency unit below that boundary does not. -/
theorem C1_alert_decision :
    THRESHOLD = 3 / 100 ∧
    (∀ (h : Hist) (s : CorroborationSignals) (info : ATHInfo),
      compute_ath (some h) = some info →
      recencySkip info.ath_pos info.total = false →
      outcomeAlert (processSymbol (some h) s) =
        decide (lastCloseD h.bars ≥ info.ath * (1 - THRESHOLD))) ∧
    (∀ current ath : ℚ,
      current = ath * (1 - THRESHOLD) → shouldAlert current ath = true) ∧
    (∀ current ath : ℚ,
      current = ath * (1 - THRESHOLD) - 1 → shouldAlert current ath = false) := by
  refine ⟨rfl, ?_, ?_, ?_⟩
  · intro h s info hc hr
    rw [processSymbol_of_gates s hc hr]
    by_cases hs : shouldAlert (lastCloseD h.bars) info.ath = true
    · rw [if_pos hs]
      show true = decide (lastCloseD h.bars ≥ info.ath * (1 - THRESHOLD))
      exact hs.symm
    · rw [if_neg hs]
      have hs' : shouldAlert (lastCloseD h.bars) info.ath = false := by simpa using hs
      show false = decide (lastCloseD h.bars ≥ info.ath * (1 - THRESHOLD))
      exact hs'.symm
  · intro current ath hcur
    subst hcur
    simp [shouldAlert]
  · intro current ath hcur
    subst hcur
    simp only [shouldAlert, ge_iff_le, decide_eq_false_iff_not, not_le]
    linarith

/-- C1 witness at a concrete five-bar history. -/
theorem C1_alert_decision_witness :
    outcomeAlert (processSymbol (some exHist) exSignals) =
      decide (lastCloseD exHist.bars ≥ (⟨250, 0, 5⟩ : ATHInfo).ath * (1 - THRESHOLD)) :=
  C1_alert_decision.2.1 exHist exSignals ⟨250, 0, 5⟩ (by decide) (by decide)

/-- C2: on every nonempty history with a "High" field, `compute_ath`
returns the maximum high, the first position attaining it, and the bar
count; the spec's `barsSinceATH` equals `(length - 1) - athIndex`. -/
theorem C2_compute_ath_correct (h : Hist) (hne : h.bars ≠ []) (hh : h.hasHigh = true) :
    ∃ info, compute_ath (some h) = some info ∧
      info.total = h.bars.length ∧
      info.ath_pos < h.bars.length ∧
      (h.bars.map PriceBar.high).getD info.ath_pos 0 = info.ath ∧
      (∀ i, i < h.bars.length → (h.bars.map PriceBar.high).getD i 0 ≤ info.ath) ∧
      (∀ j, j < info.ath_pos → (h.bars.map PriceBar.high).getD j 0 < info.ath) ∧
      barsSinceATH info = (h.bars.length - 1) - info.ath_pos := by
  obtain ⟨info, hinfo⟩ := compute_ath_isSome hne hh
  obtain ⟨-, -, htot, hpos, hget, hle, hbefore⟩ := compute_ath_some hinfo
  have hlen : (h.bars.map PriceBar.high).length = h.bars.length := List.length_map _ _
  have hmemD : ∀ i, i < h.bars.length → (h.bars.map PriceBar.high).getD i 0 ≤ info.ath := by
    intro i hi
    have hi' : i < (h.bars.map PriceBar.high).length := by rwa [hlen]
    rw [List.getD_eq_getElem _ _ hi']
    exact hle _ (List.getElem_mem hi')
  refine ⟨info, hinfo, htot, hpos, hget, hmemD, ?_, ?_⟩
  · intro j hj
    have hj' : j < h.bars.length := lt_trans hj hpos
    exact lt_of_le_of_ne (hmemD j hj') (hbefore j hj)
  · rw [barsSinceATH, htot]

/-- C2 witness at a concrete five-bar history. -/
theorem C2_compute_ath_correct_witness :
    ∃ info, compute_ath (some exHist) = some info ∧
      info.total = exHist.bars.length ∧
      info.ath_pos < exHist.bars.length ∧
      (exHist.bars.map PriceBar.high).getD info.ath_pos 0 = info.ath ∧
      (∀ i, i < exHist.bars.length →
        (exHist.bars.map PriceBar.high).getD i 0 ≤ info.ath) ∧
      (∀ j, j < info.ath_pos →
        (exHist.bars.map PriceBar.high).getD j 0 < info.ath) ∧
      barsSinceATH info = (exHist.bars.length - 1) - info.ath_pos :=
  C2_compute_ath_correct exHist (by decide) rfl

/-- C9: `compute_ath` maps an absent, empty or "High"-less history to
`none` instead of raising, and returns a value only on nonempty histories
with the "High" field. -/
theorem C9_compute_ath_totality :
    compute_ath none = none ∧
    (∀ h : Hist, h.bars = [] ∨ h.hasHigh = false → compute_ath (some h) = none) ∧
    (∀ (h : Hist) (info : ATHInfo), compute_ath (some h) = some info →
      h.bars ≠ [] ∧ h.hasHigh = true) := by
  refine ⟨rfl, ?_, ?_⟩
  · rintro h (hb | hh)
    · simp [compute_ath, hb]
    · simp [compute_ath, hh]
  · intro h info hc
    exact ⟨(compute_ath_some hc).1, (compute_ath_some hc).2.1⟩

/-- C9 witness: the empty history yields `none`. -/
theorem C9_compute_ath_totality_witness :
    compute_ath (some ⟨[], true⟩) = none :=
  C9_compute_ath_totality.2.1 ⟨[], true⟩ (Or.inl rfl)

/-- C3: with a usable ATH result (so `ath_pos < total`), the skip
condition `ath_pos > total - 4` is not taken exactly when
`barsSinceATH ≥ 3`, and is taken exactly when `barsSinceATH ≤ 2`; a
symbol whose ATH is at most two sessions old is skipped before the price
comparison, whatever the prices. -/
theorem C3_recency_gate :
    (∀ ath_pos total : ℕ, ath_pos < total →
      (recencySkip ath_pos total = false ↔ 3 ≤ total - 1 - ath_pos)) ∧
    (∀ ath_pos total : ℕ, ath_pos < total →
      (recencySkip ath_pos total = true ↔ total - 1 - ath_pos ≤ 2)) ∧
    (∀ (h : Hist) (s : CorroborationSignals) (info : ATHInfo),
      compute_ath (some h) = some info → barsSinceATH info ≤ 2 →
      processSymbol (some h) s = .tooRecent) := by
  refine ⟨?_, ?_, ?_⟩
  · intro p t hpt
    simp only [recencySkip, gt_iff_lt, decide_eq_false_iff_not, not_lt]
    omega
  · intro p t hpt
    simp only [recencySkip, gt_iff_lt, decide_eq_true_eq]
    omega
  · intro h s info hc hb
    obtain ⟨-, -, htot, hpos, -, -, -⟩ := compute_ath_some hc
    have hpt : info.ath_pos < info.total := htot ▸ hpos
    have hr : recencySkip info.ath_pos info.total = true := by
      simp only [recencySkip, gt_iff_lt, decide_eq_true_eq]
      unfold barsSinceATH at hb
      omega
    simp only [processSymbol, hc, hr, if_true]

/-- C3 witness: a two-bar history with the maximum on the last bar is
skipped as too recent. -/
theorem C3_recency_gate_witness :
    recencySkip 0 5 = false ∧
    processSymbol (some ⟨[⟨250, 245, 1000⟩, ⟨260, 258, 900⟩], true⟩) exSignals =
      .tooRecent :=
  ⟨(C3_recency_gate.1 0 5 (by decide)).mpr (by decide),
   C3_recency_gate.2.2 ⟨[⟨250, 245, 1000⟩, ⟨260, 258, 900⟩], true⟩ exSignals
     ⟨260, 1, 2⟩ (by decide) (by decide)⟩

/-- C4: the three corroboration booleans never influence whether the
alert fires; two runs on the same history with different signal values
produce the same alert bit. -/
theorem C4_signals_do_not_gate :
    ∀ (hist : Option Hist) (s₁ s₂ : CorroborationSignals),
      outcomeAlert (processSymbol hist s₁) = outcomeAlert (processSymbol hist s₂) := by
  intro hist s₁ s₂
  cases hist with
  | none => rfl
  | some h =>
    simp only [processSymbol]
    cases compute_ath (some h) with
    | none => rfl
    | some info =>
      by_cases hr : recencySkip info.ath_pos info.total = true
      · simp [hr]
      · simp only [hr, Bool.false_eq_true, if_false]
        by_cases hs : shouldAlert (lastCloseD h.bars) info.ath = true
        · simp [hs, outcomeAlert]
        · simp [hs, outcomeAlert]

/-- C10: a history of at most three bars always trips the recency gate
(`athIndex ≥ 0 > length - 4` over the integers), so it can never alert;
every emitted alert comes from a history of at least four bars. -/
theorem C10_min_four_bars :
    (∀ ath_pos total : ℕ, total ≤ 3 → recencySkip ath_pos total = true) ∧
    (∀ (h : Hist) (s : CorroborationSignals), h.bars.length ≤ 3 →
      outcomeAlert (processSymbol (some h) s) = false) ∧
    (∀ (h : Hist) (s : CorroborationSignals) (d : ℚ) (sg : CorroborationSignals),
      processSymbol (some h) s = .alert d sg → 4 ≤ h.bars.length) := by
  have hgate : ∀ ath_pos total : ℕ, total ≤ 3 → recencySkip ath_pos total = true := by
    intro p t ht
    simp only [recencySkip, gt_iff_lt, decide_eq_true_eq]
    omega
  refine ⟨hgate, ?_, ?_⟩
  · intro h s hlen
    rcases hca : compute_ath (some h) with _ | info
    · simp [processSymbol, hca, outcomeAlert]
    · obtain ⟨-, -, htot, -, -, -, -⟩ := compute_ath_some hca
      have hr : recencySkip info.ath_pos info.total = true :=
        hgate _ _ (htot ▸ hlen)
      simp [processSymbol, hca, hr, outcomeAlert]
  · intro h s d sg hp
    obtain ⟨info, hca, hr, -, -, -⟩ := processSymbol_alert_inv hp
    obtain ⟨-, -, htot, hpos, -, -, -⟩ := compute_ath_some hca
    by_contra hlt
    have : h.bars.length ≤ 3 := by omega
    rw [hgate info.ath_pos info.total (htot ▸ this)] at hr
    cases hr

lemma roundHalfEven_nonneg {q : ℚ} (hq : 0 ≤ q) : 0 ≤ roundHalfEven q := by
  have hf : (0 : ℤ) ≤ ⌊q⌋ := Int.floor_nonneg.mpr hq
  unfold roundHalfEven
  dsimp only
  split
  · exact hf
  · split
    · omega
    · split
      · exact hf
      · omega

lemma round2_nonneg {q : ℚ} (hq : 0 ≤ q) : 0 ≤ round2 q := by
  unfold round2
  have h1 : (0 : ℤ) ≤ roundHalfEven (q * 100) :=
    roundHalfEven_nonneg (mul_nonneg hq (by norm_num))
  have h2 : (0 : ℚ) ≤ (roundHalfEven (q * 100) : ℚ) := by exact_mod_cast h1
  exact div_nonneg h2 (by norm_num)

/-- C5: when an alert fires, the reported distance is
`round((ath - current) / ath * 100, 2)` (round half to even, two decimal
places); for genuine OHLC data (close ≤ high on every bar) that distance
is never negative, and the spec's numeric examples evaluate as stated. -/
theorem C5_distance_pct :
    (∀ (h : Hist) (s : CorroborationSignals) (d : ℚ) (sg : CorroborationSignals)
        (info : ATHInfo),
      processSymbol (some h) s = .alert d sg →
      compute_ath (some h) = some info →
      d = round2 ((info.ath - lastCloseD h.bars) / info.ath * 100)) ∧
    (∀ (h : Hist) (s : CorroborationSignals) (d : ℚ) (sg : CorroborationSignals),
      (∀ b ∈ h.bars, b.close ≤ b.high) →
      processSymbol (some h) s = .alert d sg → 0 ≤ d) ∧
    round2 ((100 - 973 / 10) / 100 * 100) = 27 / 10 ∧
    round2 ((250 - 245) / 250 * 100) = 2 := by
  refine ⟨?_, ?_, by norm_num [round2, roundHalfEven],
    by norm_num [round2, roundHalfEven]⟩
  · intro h s d sg info hp hc
    obtain ⟨info', hc', -, -, hd, -⟩ := processSymbol_alert_inv hp
    rw [hc] at hc'
    injection hc' with he
    rw [hd, ← he]
  · intro h s d sg hcl hp
    obtain ⟨info, hc, -, hs, hd, -⟩ := processSymbol_alert_inv hp
    obtain ⟨hne, -, -, -, -, hle, -⟩ := compute_ath_some hc
    have hlast : h.bars.getLast? = some (h.bars.getLast hne) :=
      List.getLast?_eq_getLast _ hne
    have hcur : lastCloseD h.bars = (h.bars.getLast hne).close := by
      rw [lastCloseD, hlast]; rfl
    have hhigh : (h.bars.getLast hne).high ≤ info.ath :=
      hle _ (List.mem_map_of_mem PriceBar.high (List.getLast_mem hne))
    have hca : lastCloseD h.bars ≤ info.ath := by
      rw [hcur]
      exact le_trans (hcl _ (List.getLast_mem hne)) hhigh
    have hsa : info.ath * (1 - THRESHOLD) ≤ lastCloseD h.bars :=
      of_decide_eq_true hs
    rw [THRESHOLD] at hsa
    have hath : 0 ≤ info.ath := by linarith
    rcases eq_or_lt_of_le hath with hz | hpos
    · rw [hd, ← hz]
      norm_num [div_zero, round2, roundHalfEven]
    · rw [hd]
      exact round2_nonneg
        (mul_nonneg (div_nonneg (by linarith) (le_of_lt hpos)) (by norm_num))

/-- C5 witness: the 250 / 245 scenario fires with distance exactly 2. -/
theorem C5_distance_pct_witness :
    (2 : ℚ) = round2 (((250 : ℚ) - lastCloseD exHist.bars) / 250 * 100) ∧
    (0 : ℚ) ≤ 2 := by
  have halert : processSymbol (some exHist) exSignals = .alert 2 exSignals := by
    have hc : compute_ath (some exHist) = some ⟨250, 0, 5⟩ := by decide
    rw [processSymbol_of_gates exSignals hc (by decide)]
    have hl : lastCloseD exHist.bars = 245 := by norm_num [lastCloseD, exHist]
    rw [hl]
    have hs : shouldAlert (245 : ℚ) 250 = true := by
      simp only [shouldAlert, THRESHOLD, ge_iff_le, decide_eq_true_eq]
      norm_num
    rw [if_pos hs]
    norm_num [round2, roundHalfEven]
  exact ⟨C5_distance_pct.1 exHist exSignals 2 exSignals ⟨250, 0, 5⟩ halert (by decide),
    C5_distance_pct.2.1 exHist exSignals 2 exSignals (by decide) halert⟩

/-- C10 witness: a three-bar history near its ATH still never alerts. -/
theorem C10_min_four_bars_witness :
    outcomeAlert (processSymbol
      (some ⟨[⟨100, 99, 10⟩, ⟨99, 98, 10⟩, ⟨98, 99, 10⟩], true⟩) exSignals) = false :=
  C10_min_four_bars.2.1 ⟨[⟨100, 99, 10⟩, ⟨99, 98, 10⟩, ⟨98, 99, 10⟩], true⟩
    exSignals (by decide)

lemma getD_map_of_lt {α β : Type} (f : α → β) (dA : α) (dB : β) :
    ∀ (l : List α) (i : ℕ), i < l.length →
      (l.map f).getD i dB = f (l.getD i dA) := by
  intro l
  induction l with
  | nil => intro i hi; cases hi
  | cons x xs ih =>
    intro i hi
    cases i with
    | zero => rfl
    | succ k => exact ih k (Nat.lt_of_succ_lt_succ hi)

/-- The default symbol input used to state positional facts about scans. -/
def defInput : SymbolInput := ⟨none, ⟨false, false, false⟩⟩

/-- C7: the scan processes every symbol of the universe exactly once, each
outcome depends only on that symbol's own inputs, and the modelled
per-symbol failures (missing history, empty history, missing "High"
column) end that symbol's iteration with a skip outcome rather than an
error. -/
theorem C7_per_symbol_isolation :
    (∀ inputs : List SymbolInput, (scanRun inputs).length = inputs.length) ∧
    (∀ (inputs : List SymbolInput) (i : ℕ), i < inputs.length →
      (scanRun inputs).getD i .noHistory =
        processSymbol (inputs.getD i defInput).hist (inputs.getD i defInput).signals) ∧
    (∀ s, processSymbol none s = .noHistory) ∧
    (∀ (hh : Bool) (s : CorroborationSignals),
      processSymbol (some ⟨[], hh⟩) s = .noATH) ∧
    (∀ (bars : List PriceBar) (s : CorroborationSignals),
      processSymbol (some ⟨bars, false⟩) s = .noATH) := by
  refine ⟨?_, ?_, ?_, ?_, ?_⟩
  · intro inputs
    exact List.length_map _ _
  · intro inputs i hi
    exact getD_map_of_lt _ defInput _ inputs i hi
  · intro s
    rfl
  · intro hh s
    rfl
  · intro bars s
    cases bars with
    | nil => rfl
    | cons b bs => rfl

/-- C7 witness: a two-symbol scan where the first symbol's history is
missing still yields an outcome for both symbols. -/
theorem C7_per_symbol_isolation_witness :
    (scanRun [defInput, ⟨some exHist, exSignals⟩]).length = 2 ∧
    (scanRun [defInput, ⟨some exHist, exSignals⟩]).getD 1 .noHistory =
      processSymbol (some exHist) exSignals :=
  ⟨C7_per_symbol_isolation.1 [defInput, ⟨some exHist, exSignals⟩],
   C7_per_symbol_isolation.2.1 [defInput, ⟨some exHist, exSignals⟩] 1 (by decide)⟩

/-- C8: each of the three corroboration checks maps every failure shape —
raised request, missing expected column, empty news list, empty body,
HTML body, non-JSON body, missing "Table" key — to `false` instead of an
error. -/
theorem C8_checks_fail_closed :
    (∀ s : String, check_bulk_deal s .failure = false) ∧
    (∀ (s : String) (syms : List String),
      check_bulk_deal s (.ok ⟨false, syms⟩) = false) ∧
    check_positive_news .failure = false ∧
    check_positive_news (.ok []) = false ∧
    check_insider_buying .failure = false ∧
    check_insider_buying .emptyBody = false ∧
    check_insider_buying .htmlBody = false ∧
    check_insider_buying .nonJson = false ∧
    (∀ modes : List String, check_insider_buying (.json false modes) = false) := by
  exact ⟨fun s => rfl, fun s syms => rfl, rfl, rfl, rfl, rfl, rfl, rfl, fun modes => rfl⟩

/-- A row qualifies for the universe: parseable listing date on or after
the cutoff, and series "EQ". -/
def qualRow (r : EquityRow) (cutoff : ℤ) : Bool :=
  (match r.listingDate with
   | some d => decide (cutoff ≤ d)
   | none => false) && (r.series == "EQ")

/-- Two rows for one symbol, listed (in day numbers) on "2024-01-05" and
"2024-02-10", both inside the lookback window. -/
def dupRows : List EquityRow :=
  [⟨"ABC", some 5, "EQ"⟩, ⟨"ABC", some 41, "EQ"⟩]

/-- C6 counterexample: the symbol with two qualifying rows appears twice
in the output — `get_recent_ipos` does not collapse duplicates to one
entry. -/
theorem C6_counterexample_no_collapse :
    get_recent_ipos dupRows 0 = ["ABC", "ABC"] ∧
    (get_recent_ipos dupRows 0).length ≠ 1 := by
  constructor
  · rfl
  · decide

/-- C6 amended: `get_recent_ipos` keeps one output entry per row passing
the date-parse, cutoff and series filters; a symbol occurs in the output
once per qualifying row, so duplicate listings are not collapsed. -/
theorem C6_amended_one_entry_per_row :
    ∀ (rows : List EquityRow) (cutoff : ℤ) (s : String),
      (get_recent_ipos rows cutoff).count s =
        (rows.filter (fun r => qualRow r cutoff && (r.symbol == s))).length := by
  intro rows cutoff s
  show (get_recent_ipos rows cutoff).countP (· == s) = _
  unfold get_recent_ipos
  rw [List.countP_map, List.countP_filter, List.countP_filter, List.countP_filter,
    ← List.countP_eq_length_filter]
  apply List.countP_congr
  intro r _
  cases hd : r.listingDate with
  | none => simp [qualRow, hd]
  | some dte =>
    simp only [Function.comp, qualRow, hd, Option.isSome_some, Bool.and_true,
      Bool.and_eq_true, decide_eq_true_eq, beq_iff_eq]
    tauto
